import Mathlib

set_option maxRecDepth 4000
set_option maxHeartbeats 2000000

/-!
Shallow embedding of the document ingestion, chunking and keyword-retrieval
pipeline of the study-assistant backend (the `/api/upload`, `/api/file-qa`
and `/api/file-quiz` handlers).  JavaScript strings are modelled as lists of
characters; the handlers' pure computations are modelled as Lean functions.
-/

/-- JavaScript strings are modelled as lists of characters. -/
abbrev JStr := List Char

/-- Model of `s.trim()`: drop whitespace at both ends. -/
def jsTrim (s : JStr) : JStr :=
  ((s.dropWhile Char.isWhitespace).reverse.dropWhile Char.isWhitespace).reverse

/-- Model of `s.split(re)` for a single-character class: split at every
character satisfying `p`, keeping empty pieces.  The handlers always filter
out empty pieces afterwards, which makes this agree with splitting on runs
of separator characters (`\n{1,}`, `\W+`). -/
def splitP (p : Char → Bool) : JStr → List JStr
  | [] => [[]]
  | c :: cs =>
    if p c then [] :: splitP p cs
    else
      match splitP p cs with
      | [] => [[c]]
      | r :: rs => (c :: r) :: rs

/-- The bound below which a paragraph is kept whole (`p.length <= 1000`). -/
def maxChunkSize : Nat := 1000

/-- The step of the slicing loop (`i += 800`, `p.slice(i, i + 800)`). -/
def sliceStep : Nat := 800

/-- Model of `for (let i = 0; i < p.length; i += 800) push(p.slice(i, i + 800))`.
The loop consumes at least one character per iteration, so `p.length`
iterations of structural fuel always suffice. -/
def slicesAux (fuel : Nat) (p : JStr) : List JStr :=
  match fuel, p with
  | _, [] => []
  | 0, _ => []
  | fuel + 1, c :: cs =>
    (c :: cs).take sliceStep :: slicesAux fuel ((c :: cs).drop sliceStep)

/-- The slicing loop over a whole paragraph. -/
def slices (p : JStr) : List JStr := slicesAux p.length p

/-- Model of `extractedText.split(/\n{1,}/).map(s => s.trim()).filter(Boolean)`. -/
def paragraphs (text : JStr) : List JStr :=
  ((splitP (fun c => c == '\n') text).map jsTrim).filter (fun s => !s.isEmpty)

/-- The texts pushed for one paragraph: the paragraph itself when short,
otherwise its 800-character slices. -/
def paraTexts (p : JStr) : List JStr :=
  if p.length ≤ maxChunkSize then [p] else slices p

/-- All chunk texts of a document in emission order, including the
`extractedText && extractedText.trim().length > 0` gate. -/
def chunkTexts (text : JStr) : List JStr :=
  if (jsTrim text).length = 0 then [] else (paragraphs text).map paraTexts |>.flatten

/-- Decimal digits of `n`, most significant first: the model of JavaScript
number-to-string conversion inside template literals. -/
def natDigitsAux (fuel n : Nat) : JStr :=
  match fuel with
  | 0 => [Char.ofNat (48 + n % 10)]
  | fuel + 1 =>
    if n < 10 then [Char.ofNat (48 + n)]
    else natDigitsAux fuel (n / 10) ++ [Char.ofNat (48 + n % 10)]

/-- Division by ten strictly decreases the value, so `n` steps of structural
fuel always suffice. -/
def natDigits (n : Nat) : JStr := natDigitsAux n n

/-- A chunk record exactly as pushed by the upload handler: `{ id, text }`. -/
structure Chunk where
  id : JStr
  text : JStr
deriving DecidableEq

/-- The id template literal `${now}_${chunkId}`. -/
def mkId (now k : Nat) : JStr := natDigits now ++ '_' :: natDigits k

/-- The chunk-emission loop: each pushed text receives id `${now}_${k}` and
the counter `k` is incremented once per push. -/
def buildChunks (now : Nat) : Nat → List JStr → List Chunk
  | _, [] => []
  | k, t :: ts => { id := mkId now k, text := t } :: buildChunks now (k + 1) ts

/-- The `/api/upload` chunker: split the extracted text into trimmed
non-empty paragraphs, emit short paragraphs whole, slice long ones, and
number the chunks in emission order. -/
def chunk (now : Nat) (text : JStr) : List Chunk :=
  buildChunks now 0 (chunkTexts text)

/-- Whether `pat` occurs at the very start of `t`. -/
def headMatch : JStr → JStr → Bool
  | [], _ => true
  | _ :: _, [] => false
  | p :: ps, c :: cs => p == c && headMatch ps cs

/-- The number of non-overlapping occurrences of `pat` in `t`, scanning left
to right: the value of `(t.match(new RegExp(escaped, 'g')) || []).length`
for a regex-escaped (hence literal) non-empty pattern. -/
def countOccsAux (fuel : Nat) (pat : JStr) (t : JStr) : Nat :=
  match fuel, t with
  | _, [] => 0
  | 0, _ => 0
  | fuel + 1, c :: cs =>
    if pat ≠ [] ∧ headMatch pat (c :: cs) = true then
      1 + countOccsAux fuel pat ((c :: cs).drop pat.length)
    else
      countOccsAux fuel pat cs

/-- The scan advances at least one character per step, so `t.length` steps
of structural fuel always suffice. -/
def countOccs (pat : JStr) (t : JStr) : Nat := countOccsAux t.length pat t

/-- JavaScript word characters: `\w` is ASCII letters, digits and underscore. -/
def isWordChar (c : Char) : Bool :=
  ('a' ≤ c && c ≤ 'z') || ('A' ≤ c && c ≤ 'Z') || ('0' ≤ c && c ≤ '9') || c == '_'

/-- Model of `question.toLowerCase().split(/\W+/).filter(Boolean)`. -/
def qaWords (question : JStr) : List JStr :=
  (splitP (fun c => !isWordChar c) (question.map Char.toLower)).filter
    (fun s => !s.isEmpty)

/-- The keyword score of one chunk text: for each question word of length at
least 3, add its occurrence count in the lowercased text (`score += found`,
with `if (w.length < 3) continue`). -/
def score (question : JStr) (txt : JStr) : Nat :=
  (qaWords question).foldl
    (fun acc w =>
      if w.length < 3 then acc else acc + countOccs w (txt.map Char.toLower))
    0

/-- The comparator `(a, b) => b.score - a.score` on the stable JavaScript
sort engine: larger scores first, ties kept in input order.  Modelled as a
stable merge sort with `le a b` iff `b.score <= a.score`. -/
def scoreLE (a b : Chunk × Nat) : Bool := decide (b.2 ≤ a.2)

/-- The scored list `chunks.map(c => ({ chunk: c, score }))`. -/
def scored (chunks : List Chunk) (question : JStr) : List (Chunk × Nat) :=
  chunks.map (fun c => (c, score question c.text))

/-- Stable insertion of `x`: it is placed in front of the first element `y`
of the already sorted tail with `le x y`. -/
def insertLE {α : Type} (le : α → α → Bool) (x : α) : List α → List α
  | [] => [x]
  | y :: ys => if le x y then x :: y :: ys else y :: insertLE le x ys

/-- JavaScript's `Array.prototype.sort` is specified to be stable, so with a
fixed comparator it produces the unique stable order; it is modelled here as
a stable insertion sort. -/
def stableSort {α : Type} (le : α → α → Bool) : List α → List α
  | [] => []
  | x :: xs => insertLE le x (stableSort le xs)

/-- Model of `scores.sort((a, b) => b.score - a.score)`. -/
def sortScored (chunks : List Chunk) (question : JStr) : List (Chunk × Nat) :=
  stableSort scoreLE (scored chunks question)

/-- The `/api/file-qa` chunk selection: positively scored chunks in sorted
order, at most six of them, with the first four chunks of the document as
fallback when nothing scores. -/
def retrieve (chunks : List Chunk) (question : JStr) : List Chunk :=
  let selected :=
    (((sortScored chunks question).filter (fun s => decide (0 < s.2))).take 6).map
      (fun s => s.1)
  if selected.isEmpty then chunks.take 4 else selected

/-- The JSON values needed by the metadata side-car files. -/
inductive Json where
  | str (s : JStr)
  | num (n : Nat)
  | arr (elems : List Json)
  | obj (fields : List (String × Json))

/-- Field access on a JSON object (`meta.field`), `none` otherwise. -/
def jGet (j : Json) (key : String) : Option Json :=
  match j with
  | .obj fields => fields.lookup key
  | _ => none

/-- The serialized form of a chunk inside `meta.chunks`: the object literal
`{ id, text }` pushed by the upload handler. -/
def encodeChunk (c : Chunk) : Json :=
  .obj [("id", .str c.id), ("text", .str c.text)]

/-- Reading a chunk object back the way `/api/file-qa` uses it
(`c.id`, `c.text || ""`). -/
def readChunk (j : Json) : Chunk :=
  { id := match jGet j "id" with | some (.str s) => s | _ => []
    text := match jGet j "text" with | some (.str s) => s | _ => [] }

/-- The document record written by `/api/upload` into
`<filename>.meta.json`. -/
structure DocRecord where
  id : JStr
  originalName : JStr
  filename : JStr
  path : JStr
  size : Nat
  mimeType : JStr
  uploadedAt : JStr
  chunks : List Chunk
deriving DecidableEq

/-- Serialization of the whole metadata record (`JSON.stringify(meta)`). -/
def encodeMeta (m : DocRecord) : Json :=
  .obj [("id", .str m.id), ("originalName", .str m.originalName),
        ("filename", .str m.filename), ("path", .str m.path),
        ("size", .num m.size), ("mimeType", .str m.mimeType),
        ("uploadedAt", .str m.uploadedAt),
        ("chunks", .arr (m.chunks.map encodeChunk))]

/-- Parsing a stored metadata document back into a whole record; `none` when
any field is missing or has the wrong shape, so a successful parse is never
partially populated. -/
def decodeMeta (j : Json) : Option DocRecord :=
  match jGet j "id", jGet j "originalName", jGet j "filename", jGet j "path",
        jGet j "size", jGet j "mimeType", jGet j "uploadedAt", jGet j "chunks" with
  | some (.str i), some (.str o), some (.str f), some (.str p),
    some (.num sz), some (.str mt), some (.str up), some (.arr cs) =>
      some { id := i, originalName := o, filename := f, path := p, size := sz,
             mimeType := mt, uploadedAt := up, chunks := cs.map readChunk }
  | _, _, _, _, _, _, _, _ => none

/-- The uploads directory as a metadata store: a map from file names of the
side-car files to their parsed JSON contents. -/
def Store := String → Option Json

/-- An empty uploads directory. -/
def emptyStore : Store := fun _ => none

/-- The side-car file name `${filename}.meta.json`. -/
def metaKey (filename : String) : String := filename ++ ".meta.json"

/-- Model of `fs.writeFileSync(metaPath, JSON.stringify(meta, null, 2))`:
a whole-record write that overwrites any previous record of the same key. -/
def saveMeta (st : Store) (filename : String) (m : DocRecord) : Store :=
  fun k => if k = metaKey filename then some (encodeMeta m) else st k

/-- The store's `load`: `none` when no record exists for the key, otherwise
the record parsed back from the stored JSON. -/
def loadMeta (st : Store) (filename : String) : Option DocRecord :=
  (st (metaKey filename)).bind decodeMeta

/-- The chunk list as the query handlers read it: `meta.chunks || []`, each
element accessed through `c.id` and `c.text || ""`. -/
def metaChunks (j : Json) : List Chunk :=
  match jGet j "chunks" with
  | some (.arr cs) => cs.map readChunk
  | _ => []

/-- Outcome of a handler, up to (and excluding) the external language-model
call: an HTTP error response, or a successful delegation carrying the
selected context chunks. -/
inductive ApiResult (α : Type) where
  | clientError (status : Nat) (msg : String)
  | serverError (msg : String)
  | ok (val : α)
deriving DecidableEq

/-- The `/api/file-qa` handler: request validation, metadata lookup, keyword
scoring and chunk selection, ending at the language-model delegation. -/
def fileQa (st : Store) (fileFilename : Option String) (question : Option JStr)
    (groqConfigured : Bool) : ApiResult (List Chunk) :=
  match fileFilename, question with
  | some f, some q =>
    if f = "" ∨ q = [] then .clientError 400 "Missing fileFilename or question"
    else
      match st (metaKey f) with
      | none => .clientError 404 "File metadata not found"
      | some j =>
        let selected := retrieve (metaChunks j) q
        if groqConfigured then .ok selected
        else .serverError "Groq client not configured"
  | _, _ => .clientError 400 "Missing fileFilename or question"

/-- The `/api/file-quiz` handler: request validation, metadata lookup, the
empty-extraction check, and the bulk context of the first six chunks. -/
def fileQuiz (st : Store) (fileFilename : Option String) (groqConfigured : Bool) :
    ApiResult (List Chunk) :=
  match fileFilename with
  | some f =>
    if f = "" then .clientError 400 "Missing fileFilename"
    else
      match st (metaKey f) with
      | none => .clientError 404 "File metadata not found"
      | some j =>
        let chunks := metaChunks j
        if chunks.length = 0 then .clientError 400 "No extracted text available"
        else if groqConfigured then .ok (chunks.take 6)
        else .serverError "AI provider not configured"
  | none => .clientError 400 "Missing fileFilename"

/-! ### Lemmas about the chunker -/

theorem slicesAux_fuel : ∀ {f1 : Nat} {p : JStr} {f2 : Nat},
    p.length ≤ f1 → p.length ≤ f2 → slicesAux f1 p = slicesAux f2 p := by
  intro f1
  induction f1 with
  | zero =>
    intro p f2 h1 _
    have hnil : p = [] := List.eq_nil_of_length_eq_zero (Nat.le_zero.mp h1)
    subst hnil
    cases f2 <;> rfl
  | succ f1 ih =>
    intro p f2 h1 h2
    cases p with
    | nil => cases f2 <;> rfl
    | cons c cs =>
      cases f2 with
      | zero => simp at h2
      | succ f2 =>
        simp only [slicesAux]
        congr 1
        have hstep : 0 < sliceStep := by decide
        apply ih <;> (simp only [List.length_drop, List.length_cons] at h1 h2 ⊢; omega)

theorem slices_unfold (p : JStr) :
    slices p = if p = [] then [] else p.take sliceStep :: slices (p.drop sliceStep) := by
  cases p with
  | nil => rfl
  | cons c cs =>
    rw [if_neg (by simp)]
    show slicesAux (cs.length + 1) (c :: cs) = _
    simp only [slicesAux]
    congr 1
    show slicesAux cs.length ((c :: cs).drop sliceStep)
        = slicesAux ((c :: cs).drop sliceStep).length ((c :: cs).drop sliceStep)
    have hstep : 0 < sliceStep := by decide
    apply slicesAux_fuel
    · simp only [List.length_drop, List.length_cons]
      omega
    · exact le_rfl

theorem slices_eq_nil_iff (p : JStr) : slices p = [] ↔ p = [] := by
  constructor
  · intro h
    by_contra hp
    rw [slices_unfold] at h
    simp [hp] at h
  · intro h
    subst h
    rfl

theorem slices_flatten (p : JStr) : (slices p).flatten = p := by
  have H : ∀ n (p : JStr), p.length ≤ n → (slices p).flatten = p := by
    intro n
    induction n with
    | zero =>
      intro p hp
      have hnil : p = [] := List.eq_nil_of_length_eq_zero (Nat.le_zero.mp hp)
      subst hnil
      rfl
    | succ n ih =>
      intro p hp
      rw [slices_unfold]
      split
      · rename_i h
        subst h
        simp
      · rename_i h
        have hpos := List.length_pos.mpr h
        simp only [List.flatten_cons]
        rw [ih (p.drop sliceStep) (by simp only [List.length_drop, sliceStep]; omega)]
        exact List.take_append_drop _ _
  exact H p.length p le_rfl

theorem length_le_of_mem_slices {s p : JStr} (hs : s ∈ slices p) :
    s.length ≤ sliceStep := by
  have H : ∀ n (p : JStr), p.length ≤ n → ∀ s ∈ slices p, s.length ≤ sliceStep := by
    intro n
    induction n with
    | zero =>
      intro p hp s hs
      have hnil : p = [] := List.eq_nil_of_length_eq_zero (Nat.le_zero.mp hp)
      subst hnil
      simp [slices, slicesAux] at hs
    | succ n ih =>
      intro p hp s hs
      rw [slices_unfold] at hs
      split at hs
      · simp at hs
      · rename_i h
        have hpos := List.length_pos.mpr h
        rcases List.mem_cons.mp hs with h1 | h2
        · subst h1
          simp [List.length_take]
        · exact ih (p.drop sliceStep) (by simp only [List.length_drop, sliceStep]; omega) s h2
  exact H p.length p le_rfl s hs

theorem length_eq_of_mem_slices_dropLast {s p : JStr} (hs : s ∈ (slices p).dropLast) :
    s.length = sliceStep := by
  have H : ∀ n (p : JStr), p.length ≤ n → ∀ s ∈ (slices p).dropLast, s.length = sliceStep := by
    intro n
    induction n with
    | zero =>
      intro p hp s hs
      have hnil : p = [] := List.eq_nil_of_length_eq_zero (Nat.le_zero.mp hp)
      subst hnil
      simp [slices, slicesAux] at hs
    | succ n ih =>
      intro p hp s hs
      rw [slices_unfold] at hs
      split at hs
      · simp at hs
      · rename_i h
        have hpos := List.length_pos.mpr h
        rcases hrest : slices (p.drop sliceStep) with _ | ⟨r, rs⟩
        · rw [hrest] at hs
          simp at hs
        · rw [hrest] at hs
          rw [List.dropLast_cons₂] at hs
          have hdrop : p.drop sliceStep ≠ [] := by
            intro hd
            rw [(slices_eq_nil_iff _).mpr hd] at hrest
            cases hrest
          have hlong : sliceStep < p.length := by
            have := List.length_pos.mpr hdrop
            simp only [List.length_drop] at this
            omega
          rcases List.mem_cons.mp hs with h1 | h2
          · subst h1
            simp [List.length_take]
            omega
          · rw [← hrest] at h2
            exact ih (p.drop sliceStep) (by simp only [List.length_drop, sliceStep]; omega) s h2
  exact H p.length p le_rfl s hs

theorem length_le_of_mem_paraTexts {t p : JStr} (ht : t ∈ paraTexts p) :
    t.length ≤ maxChunkSize := by
  unfold paraTexts at ht
  split at ht
  · rename_i h
    rw [List.mem_singleton.mp ht]
    exact h
  · have := length_le_of_mem_slices ht
    unfold sliceStep at this
    unfold maxChunkSize
    omega

theorem length_buildChunks (now : Nat) : ∀ (k : Nat) (ts : List JStr),
    (buildChunks now k ts).length = ts.length
  | _, [] => rfl
  | k, _ :: ts => by
    simp only [buildChunks, List.length_cons, length_buildChunks now (k + 1) ts]

theorem text_mem_of_mem_buildChunks {c : Chunk} (now : Nat) :
    ∀ {k : Nat} {ts : List JStr}, c ∈ buildChunks now k ts → c.text ∈ ts := by
  intro k ts
  induction ts generalizing k with
  | nil => intro h; cases h
  | cons t ts ih =>
    intro h
    rcases List.mem_cons.mp h with h1 | h2
    · subst h1
      exact List.mem_cons_self _ _
    · exact List.mem_cons_of_mem _ (ih h2)

theorem exists_para_of_mem_chunkTexts {t : JStr} {text : JStr}
    (ht : t ∈ chunkTexts text) : ∃ p ∈ paragraphs text, t ∈ paraTexts p := by
  unfold chunkTexts at ht
  split at ht
  · cases ht
  · rcases List.mem_flatten.mp ht with ⟨l, hl, hmem⟩
    rcases List.mem_map.mp hl with ⟨p, hp, rfl⟩
    exact ⟨p, hp, hmem⟩

theorem splitP_eq_single {p : Char → Bool} :
    ∀ {l : JStr}, (∀ c ∈ l, p c = false) → splitP p l = [l] := by
  intro l
  induction l with
  | nil => intro _; rfl
  | cons c cs ih =>
    intro h
    have hc : p c = false := h c (List.mem_cons_self _ _)
    have hcs := ih (fun d hd => h d (List.mem_cons_of_mem _ hd))
    simp [splitP, hc, hcs]

theorem dropWhile_eq_self_of {p : Char → Bool} : ∀ {l : JStr},
    (∀ c ∈ l, p c = false) → l.dropWhile p = l
  | [], _ => rfl
  | c :: _, h => by
    rw [List.dropWhile_cons, if_neg (by simp [h c (List.mem_cons_self _ _)])]

theorem jsTrim_eq_self {l : JStr} (h : ∀ c ∈ l, c.isWhitespace = false) :
    jsTrim l = l := by
  unfold jsTrim
  rw [dropWhile_eq_self_of h,
    dropWhile_eq_self_of (fun c hc => h c (List.mem_reverse.mp hc))]
  exact List.reverse_reverse l

theorem paragraphs_eq_single {text : JStr} (hnl : '\n' ∉ text)
    (htr : jsTrim text = text) (hne : text ≠ []) : paragraphs text = [text] := by
  unfold paragraphs
  rw [splitP_eq_single (p := fun c => c == '\n')
    (fun c hc => by simp only [beq_eq_false_iff_ne, ne_eq]; intro hceq; exact hnl (hceq ▸ hc))]
  simp [htr, hne]

theorem chunkTexts_eq_paraTexts {text : JStr} (hnl : '\n' ∉ text)
    (htr : jsTrim text = text) (hne : text ≠ []) :
    chunkTexts text = paraTexts text := by
  unfold chunkTexts
  rw [htr, paragraphs_eq_single hnl htr hne]
  rw [if_neg (by simpa [List.length_eq_zero] using hne)]
  simp

theorem map_id_buildChunks (now : Nat) : ∀ (k : Nat) (ts : List JStr),
    (buildChunks now k ts).map Chunk.id
      = (List.range ts.length).map (fun j => mkId now (k + j)) := by
  intro k ts
  induction ts generalizing k with
  | nil => rfl
  | cons t ts ih =>
    simp only [buildChunks, List.map_cons, List.length_cons, List.range_succ_eq_map,
      ih (k + 1), List.map_map, List.cons.injEq]
    refine ⟨by simp, List.map_congr_left (fun a _ => ?_)⟩
    simp only [Function.comp_apply]
    congr 1
    omega

theorem natDigitsAux_fuel : ∀ {f1 n f2 : Nat},
    n ≤ f1 → n ≤ f2 → natDigitsAux f1 n = natDigitsAux f2 n := by
  intro f1
  induction f1 with
  | zero =>
    intro n f2 h1 _
    have hn : n = 0 := Nat.le_zero.mp h1
    subst hn
    cases f2 with
    | zero => rfl
    | succ f2 => simp [natDigitsAux]
  | succ f1 ih =>
    intro n f2 h1 h2
    by_cases hn : n < 10
    · cases f2 with
      | zero =>
        have hz : n = 0 := Nat.le_zero.mp h2
        subst hz
        simp [natDigitsAux]
      | succ f2 => simp [natDigitsAux, hn]
    · cases f2 with
      | zero => omega
      | succ f2 =>
        simp only [natDigitsAux, if_neg hn]
        congr 1
        apply ih <;> omega

theorem natDigits_lt {n : Nat} (h : n < 10) :
    natDigits n = [Char.ofNat (48 + n)] := by
  unfold natDigits
  cases n with
  | zero => simp [natDigitsAux]
  | succ m => simp [natDigitsAux, h]

theorem natDigits_ge {n : Nat} (h : ¬ n < 10) :
    natDigits n = natDigits (n / 10) ++ [Char.ofNat (48 + n % 10)] := by
  unfold natDigits
  cases hn : n with
  | zero => omega
  | succ m =>
    subst hn
    simp only [natDigitsAux, if_neg h]
    congr 1
    apply natDigitsAux_fuel <;> omega

theorem natDigits_ne_nil (n : Nat) : natDigits n ≠ [] := by
  by_cases h : n < 10
  · rw [natDigits_lt h]
    simp
  · rw [natDigits_ge h]
    simp

theorem digit_char_inj {a b : Nat} (ha : a < 10) (hb : b < 10)
    (h : Char.ofNat (48 + a) = Char.ofNat (48 + b)) : a = b := by
  interval_cases a <;> interval_cases b <;> revert h <;> decide

theorem natDigits_inj : ∀ {m n : Nat}, natDigits m = natDigits n → m = n := by
  intro m
  induction m using Nat.strong_induction_on with
  | _ m ih =>
    intro n h
    by_cases hm : m < 10 <;> by_cases hn : n < 10
    · rw [natDigits_lt hm, natDigits_lt hn] at h
      injection h with h1 _
      exact digit_char_inj hm hn h1
    · rw [natDigits_lt hm, natDigits_ge hn] at h
      have hlen := congrArg List.length h
      have hne := natDigits_ne_nil (n / 10)
      simp only [List.length_singleton, List.length_append, List.length_cons,
        List.length_nil] at hlen
      have := List.length_pos.mpr hne
      omega
    · rw [natDigits_ge hm, natDigits_lt hn] at h
      have hlen := congrArg List.length h
      have hne := natDigits_ne_nil (m / 10)
      simp only [List.length_singleton, List.length_append, List.length_cons,
        List.length_nil] at hlen
      have := List.length_pos.mpr hne
      omega
    · rw [natDigits_ge hm, natDigits_ge hn] at h
      have hrev := congrArg List.reverse h
      simp only [List.reverse_append, List.reverse_cons, List.reverse_nil,
        List.nil_append, List.cons_append, List.cons.injEq] at hrev
      obtain ⟨hlast, htail⟩ := hrev
      have hmod : m % 10 = n % 10 :=
        digit_char_inj (Nat.mod_lt _ (by omega)) (Nat.mod_lt _ (by omega)) hlast
      have hdivs : natDigits (m / 10) = natDigits (n / 10) := by
        have := congrArg List.reverse htail
        simpa using this
      have hdiv : m / 10 = n / 10 := ih (m / 10) (Nat.div_lt_self (by omega) (by omega)) hdivs
      omega

theorem mkId_inj (now : Nat) {j k : Nat} (h : mkId now j = mkId now k) : j = k := by
  unfold mkId at h
  have h2 := List.append_cancel_left h
  injection h2 with _ h3
  exact natDigits_inj h3

/-! ### Lemmas about the retriever -/

theorem scoreLE_trans : ∀ (a b c : Chunk × Nat),
    scoreLE a b → scoreLE b c → scoreLE a c := by
  intro a b c hab hbc
  simp only [scoreLE, decide_eq_true_eq] at *
  omega

theorem scoreLE_total : ∀ (a b : Chunk × Nat), scoreLE a b || scoreLE b a := by
  intro a b
  simp only [scoreLE]
  rcases Nat.le_total a.2 b.2 with h | h <;> simp [h]

theorem perm_insertLE {α : Type} (le : α → α → Bool) (x : α) :
    ∀ l : List α, List.Perm (insertLE le x l) (x :: l)
  | [] => List.Perm.refl _
  | y :: ys => by
    simp only [insertLE]
    split
    · exact List.Perm.refl _
    · exact (List.Perm.cons y (perm_insertLE le x ys)).trans (List.Perm.swap x y ys)

theorem perm_stableSort {α : Type} (le : α → α → Bool) :
    ∀ l : List α, List.Perm (stableSort le l) l
  | [] => List.Perm.refl _
  | x :: xs =>
    (perm_insertLE le x (stableSort le xs)).trans
      (List.Perm.cons x (perm_stableSort le xs))

theorem pairwise_insertLE {α : Type} {le : α → α → Bool}
    (trans : ∀ a b c, le a b → le b c → le a c)
    (total : ∀ a b, le a b || le b a) (x : α) :
    ∀ {l : List α}, l.Pairwise (fun a b => le a b = true) →
      (insertLE le x l).Pairwise (fun a b => le a b = true)
  | [], _ => by simp [insertLE]
  | y :: ys, h => by
    simp only [insertLE]
    split
    · rename_i hxy
      refine List.Pairwise.cons (fun b hb => ?_) h
      rcases List.mem_cons.mp hb with rfl | hb2
      · exact hxy
      · exact trans x y b hxy (List.rel_of_pairwise_cons h hb2)
    · rename_i hxy
      have hyx : le y x = true := by
        have htot := total x y
        rw [Bool.or_eq_true] at htot
        rcases htot with h1 | h1
        · exact absurd h1 hxy
        · exact h1
      refine List.Pairwise.cons (fun b hb => ?_)
        (pairwise_insertLE trans total x (List.Pairwise.of_cons h))
      have hbmem : b ∈ x :: ys := (perm_insertLE le x ys).mem_iff.mp hb
      rcases List.mem_cons.mp hbmem with rfl | hb2
      · exact hyx
      · exact List.rel_of_pairwise_cons h hb2

theorem pairwise_stableSort {α : Type} {le : α → α → Bool}
    (trans : ∀ a b c, le a b → le b c → le a c)
    (total : ∀ a b, le a b || le b a) :
    ∀ l : List α, (stableSort le l).Pairwise (fun a b => le a b = true)
  | [] => List.Pairwise.nil
  | x :: xs => pairwise_insertLE trans total x (pairwise_stableSort trans total xs)

theorem filter_insertLE_pos {α : Type} {le : α → α → Bool} {p : α → Bool} {x : α}
    (hx : p x = true) (hclass : ∀ b, p b = true → le x b = true) :
    ∀ l : List α, (insertLE le x l).filter p = x :: l.filter p
  | [] => by simp [insertLE, hx]
  | y :: ys => by
    simp only [insertLE]
    split
    · simp [List.filter_cons, hx]
    · rename_i hxy
      have hpy : p y = false := by
        cases hy : p y
        · rfl
        · exact absurd (hclass y hy) (by simpa using hxy)
      simp only [List.filter_cons, hpy, Bool.false_eq_true, if_false]
      exact filter_insertLE_pos hx hclass ys

theorem filter_insertLE_neg {α : Type} {le : α → α → Bool} {p : α → Bool} {x : α}
    (hx : p x = false) :
    ∀ l : List α, (insertLE le x l).filter p = l.filter p
  | [] => by simp [insertLE, hx]
  | y :: ys => by
    simp only [insertLE]
    split
    · simp [List.filter_cons, hx]
    · simp only [List.filter_cons]
      rw [filter_insertLE_neg hx ys]

theorem filter_stableSort {α : Type} {le : α → α → Bool} {p : α → Bool}
    (hclass : ∀ a b, p a = true → p b = true → le a b = true) :
    ∀ l : List α, (stableSort le l).filter p = l.filter p
  | [] => rfl
  | x :: xs => by
    simp only [stableSort]
    cases hx : p x
    · rw [filter_insertLE_neg hx, filter_stableSort hclass xs]
      simp [List.filter_cons, hx]
    · rw [filter_insertLE_pos hx (fun b hb => hclass x b hx hb),
        filter_stableSort hclass xs]
      simp [List.filter_cons, hx]

theorem mem_sortScored {s : Chunk × Nat} {chunks : List Chunk} {q : JStr} :
    s ∈ sortScored chunks q ↔ s ∈ scored chunks q :=
  (perm_stableSort scoreLE (scored chunks q)).mem_iff

theorem mem_of_mem_retrieve {chunks : List Chunk} {q : JStr} {c : Chunk}
    (h : c ∈ retrieve chunks q) : c ∈ chunks := by
  simp only [retrieve] at h
  split at h
  · exact List.mem_of_mem_take h
  · rcases List.mem_map.mp h with ⟨s, hs, rfl⟩
    have h1 : s ∈ (sortScored chunks q).filter (fun s => decide (0 < s.2)) :=
      List.mem_of_mem_take hs
    have h2 : s ∈ sortScored chunks q := List.mem_of_mem_filter h1
    have h3 : s ∈ scored chunks q := mem_sortScored.mp h2
    rcases List.mem_map.mp h3 with ⟨c', hc', heq⟩
    rw [← heq]
    exact hc'

theorem retrieve_zero_scores {chunks : List Chunk} {q : JStr}
    (h : ∀ c ∈ chunks, score q c.text = 0) :
    retrieve chunks q = chunks.take 4 := by
  have hfil : (sortScored chunks q).filter (fun s => decide (0 < s.2)) = [] := by
    rw [List.filter_eq_nil_iff]
    intro s hs
    have h3 : s ∈ scored chunks q := mem_sortScored.mp hs
    rcases List.mem_map.mp h3 with ⟨c', hc', heq⟩
    rw [← heq]
    simp [h c' hc']
  simp [retrieve, hfil]

theorem retrieve_nil (q : JStr) : retrieve [] q = [] := rfl

theorem length_filter_sortScored (chunks : List Chunk) (q : JStr) :
    ((sortScored chunks q).filter (fun s => decide (0 < s.2))).length
      = chunks.countP (fun c => decide (0 < score q c.text)) := by
  rw [← List.countP_eq_length_filter]
  have hperm : List.Perm (sortScored chunks q) (scored chunks q) :=
    perm_stableSort scoreLE (scored chunks q)
  rw [hperm.countP_eq]
  unfold scored
  rw [List.countP_map]
  rfl

theorem retrieve_length_eq (chunks : List Chunk) (q : JStr) :
    (retrieve chunks q).length =
      if chunks.countP (fun c => decide (0 < score q c.text)) = 0
      then min 4 chunks.length
      else min 6 (chunks.countP (fun c => decide (0 < score q c.text))) := by
  by_cases h0 : chunks.countP (fun c => decide (0 < score q c.text)) = 0
  · rw [if_pos h0]
    have hnil : (sortScored chunks q).filter (fun s => decide (0 < s.2)) = [] :=
      List.length_eq_zero.mp ((length_filter_sortScored chunks q).trans h0)
    simp [retrieve, hnil, List.length_take]
  · rw [if_neg h0]
    have hpos : 0 < ((sortScored chunks q).filter (fun s => decide (0 < s.2))).length := by
      rw [length_filter_sortScored]
      omega
    have hne : ¬((((sortScored chunks q).filter (fun s => decide (0 < s.2))).take 6).map
        (fun s => s.1)).isEmpty = true := by
      intro hemp
      rw [List.isEmpty_iff] at hemp
      have hlen := congrArg List.length hemp
      simp only [List.length_map, List.length_take, List.length_nil] at hlen
      omega
    simp only [retrieve, if_neg hne, List.length_map, List.length_take,
      length_filter_sortScored]

theorem sortScored_pairwise (chunks : List Chunk) (q : JStr) :
    (sortScored chunks q).Pairwise (fun a b => b.2 ≤ a.2) := by
  have h := pairwise_stableSort scoreLE_trans scoreLE_total (scored chunks q)
  exact h.imp (fun hab => by simpa [scoreLE] using hab)

theorem sortScored_stable (chunks : List Chunk) (q : JStr) (v : Nat) :
    (sortScored chunks q).filter (fun s => decide (s.2 = v))
      = (scored chunks q).filter (fun s => decide (s.2 = v)) :=
  filter_stableSort
    (fun a b ha hb => by
      simp only [decide_eq_true_eq] at ha hb
      simp [scoreLE, ha, hb])
    (scored chunks q)

/-- The score written as the spec phrases it: the sum, over the question's
word tokens of length at least 3, of the number of occurrences of the token
in the lowercased chunk text. -/
def scoreByWordTokens (question txt : JStr) : Nat :=
  (((qaWords question).filter (fun w => decide (3 ≤ w.length))).map
    (fun w => countOccs w (txt.map Char.toLower))).sum

/-- The claim's version of the tokenizer: a splitter on non-alphanumeric
characters (underscore splits too), modelled from the spec words for
comparison with the code's `\W+` splitter. -/
def isAlnumChar (c : Char) : Bool :=
  ('a' ≤ c && c ≤ 'z') || ('A' ≤ c && c ≤ 'Z') || ('0' ≤ c && c ≤ '9')

/-- Modelled from the spec: the score computed with tokens split on every
non-alphanumeric character. -/
def scoreByAlnumTokens (question txt : JStr) : Nat :=
  ((((splitP (fun c => !isAlnumChar c) (question.map Char.toLower)).filter
      (fun s => !s.isEmpty)).filter (fun w => decide (3 ≤ w.length))).map
    (fun w => countOccs w (txt.map Char.toLower))).sum

theorem foldl_score_eq (f : JStr → Nat) :
    ∀ (ws : List JStr) (acc : Nat),
      ws.foldl (fun a w => if w.length < 3 then a else a + f w) acc
        = acc + ((ws.filter (fun w => decide (3 ≤ w.length))).map f).sum := by
  intro ws
  induction ws with
  | nil => intro acc; simp
  | cons w ws ih =>
    intro acc
    by_cases hw : w.length < 3
    · have : ¬ (3 ≤ w.length) := by omega
      simp [List.foldl_cons, hw, this, ih]
    · have h3 : 3 ≤ w.length := by omega
      rw [List.foldl_cons, if_neg hw, ih, List.filter_cons_of_pos (by simpa using h3),
        List.map_cons, List.sum_cons]
      omega

/-! ### Lemmas about the metadata store -/

theorem readChunk_encodeChunk (c : Chunk) : readChunk (encodeChunk c) = c := rfl

theorem map_readChunk_encodeChunk (cs : List Chunk) :
    (cs.map encodeChunk).map readChunk = cs := by
  rw [List.map_map]
  have h : readChunk ∘ encodeChunk = id := funext fun c => readChunk_encodeChunk c
  rw [h, List.map_id]

theorem decodeMeta_encodeMeta (m : DocRecord) : decodeMeta (encodeMeta m) = some m := by
  show some { m with chunks := (m.chunks.map encodeChunk).map readChunk } = some m
  rw [map_readChunk_encodeChunk]

theorem metaChunks_encodeMeta (m : DocRecord) : metaChunks (encodeMeta m) = m.chunks := by
  show (m.chunks.map encodeChunk).map readChunk = m.chunks
  exact map_readChunk_encodeChunk m.chunks

/-! ### Concrete sample data for counterexamples and witnesses -/

/-- First chunk of the spec's example document. -/
def mitoChunk : Chunk :=
  ⟨"a".data, "The mitochondria is the powerhouse of the cell.".data⟩

/-- Second chunk of the spec's example document. -/
def photoChunk : Chunk :=
  ⟨"b".data, "Photosynthesis occurs in chloroplasts.".data⟩

/-- A chunk sharing no token with the questions below. -/
def zzzChunk : Chunk := ⟨"z".data, "zzzz qqqq".data⟩

/-- The spec's zero-overlap question. -/
def gravityQuestion : JStr := "unrelated quantum gravity topic".data

/-- The spec's matching question. -/
def powerhouseQuestion : JStr := "What is the powerhouse of the cell?".data

/-- A 1001-character paragraph (above the splitting threshold). -/
def longPara : JStr := List.replicate 800 'a' ++ List.replicate 201 'b'

/-- A paragraph of exactly 1000 characters (at the splitting threshold). -/
def para1000 : JStr := List.replicate 1000 'a'

/-- A document record whose chunk sequence is empty. -/
def emptyChunksRecord : DocRecord :=
  ⟨"d1".data, "notes.txt".data, "stored-notes.txt".data,
   "uploads/stored-notes.txt".data, 0, "text/plain".data,
   "2024-01-01T00:00:00Z".data, []⟩

/-- A document record holding the spec's example document. -/
def sampleRecord : DocRecord :=
  ⟨"d2".data, "bio.txt".data, "stored-bio.txt".data,
   "uploads/stored-bio.txt".data, 86, "text/plain".data,
   "2024-01-02T00:00:00Z".data, [mitoChunk, photoChunk]⟩

/-! ### Symbolic evaluation of the large sample paragraphs -/

theorem longPara_length : longPara.length = 1001 := by
  simp [longPara]

theorem longPara_no_newline : '\n' ∉ longPara := by
  intro h
  rcases List.mem_append.mp h with h1 | h1 <;>
    exact absurd (List.eq_of_mem_replicate h1) (by decide)

theorem longPara_trim : jsTrim longPara = longPara :=
  jsTrim_eq_self (fun c hc => by
    rcases List.mem_append.mp hc with h1 | h1 <;>
      (rw [List.eq_of_mem_replicate h1]; decide))

theorem slices_longPara :
    slices longPara = [List.replicate 800 'a', List.replicate 201 'b'] := by
  have hstep : sliceStep = (List.replicate 800 'a' : JStr).length := by
    simp [sliceStep]
  rw [slices_unfold, if_neg (by simp [longPara])]
  have h1 : longPara.take sliceStep = List.replicate 800 'a' := by
    rw [longPara, hstep, List.take_left]
  have h2 : longPara.drop sliceStep = List.replicate 201 'b' := by
    rw [longPara, hstep, List.drop_left]
  rw [h1, h2, slices_unfold, if_neg (by simp)]
  have h3 : (List.replicate 201 'b' : JStr).take sliceStep = List.replicate 201 'b' :=
    List.take_of_length_le (by simp [sliceStep])
  have h4 : (List.replicate 201 'b' : JStr).drop sliceStep = [] :=
    List.drop_eq_nil_of_le (by simp [sliceStep])
  rw [h3, h4]
  rfl

theorem map_text_buildChunks (now : Nat) : ∀ (k : Nat) (ts : List JStr),
    (buildChunks now k ts).map Chunk.text = ts := by
  intro k ts
  induction ts generalizing k with
  | nil => rfl
  | cons t ts ih => simp [buildChunks, ih (k + 1)]

theorem chunk_texts_longPara :
    (chunk 0 longPara).map Chunk.text
      = [List.replicate 800 'a', List.replicate 201 'b'] := by
  rw [chunk, map_text_buildChunks,
    chunkTexts_eq_paraTexts longPara_no_newline longPara_trim (by simp [longPara])]
  unfold paraTexts
  rw [if_neg (by simp [longPara_length, maxChunkSize])]
  exact slices_longPara

theorem para1000_no_newline : '\n' ∉ para1000 := by
  intro h
  exact absurd (List.eq_of_mem_replicate h) (by decide)

theorem para1000_trim : jsTrim para1000 = para1000 :=
  jsTrim_eq_self (fun c hc => by rw [List.eq_of_mem_replicate hc]; decide)

theorem chunk_para1000 : chunk 0 para1000 = [Chunk.mk (mkId 0 0) para1000] := by
  rw [chunk, chunkTexts_eq_paraTexts para1000_no_newline para1000_trim
    (by simp [para1000])]
  unfold paraTexts
  rw [if_pos (by simp [para1000, maxChunkSize])]
  rfl

/-! ### Claim C1 -/

/-- C1 fails as stated: with two chunks of which only one scores positively,
the selection has length 1, not `min 6 2 = 2`. -/
theorem c1_counterexample :
    (retrieve [mitoChunk, zzzChunk] powerhouseQuestion).length ≠
      min 6 ([mitoChunk, zzzChunk] : List Chunk).length := by decide

/-- C1 (amended): for every non-empty chunk sequence and question, the
length of `retrieve` is `min 4 (chunk count)` when no chunk scores
positively, and `min 6 (number of positively scored chunks)` otherwise; it
is never empty when at least one chunk exists. -/
theorem c1_retrieve_length (chunks : List Chunk) (q : JStr) (h : chunks ≠ []) :
    ((retrieve chunks q).length =
      if chunks.countP (fun c => decide (0 < score q c.text)) = 0
      then min 4 chunks.length
      else min 6 (chunks.countP (fun c => decide (0 < score q c.text))))
    ∧ retrieve chunks q ≠ [] := by
  refine ⟨retrieve_length_eq chunks q, ?_⟩
  intro hnil
  have hlen := retrieve_length_eq chunks q
  rw [hnil] at hlen
  simp only [List.length_nil] at hlen
  have hch : 0 < chunks.length := List.length_pos.mpr h
  split at hlen
  · omega
  · rename_i hcp
    omega

/-- Witness for C1 at the two-chunk document with a partially matching
question. -/
theorem c1_retrieve_length_witness :
    ((retrieve [mitoChunk, zzzChunk] powerhouseQuestion).length =
      if ([mitoChunk, zzzChunk] : List Chunk).countP
          (fun c => decide (0 < score powerhouseQuestion c.text)) = 0
      then min 4 ([mitoChunk, zzzChunk] : List Chunk).length
      else min 6 (([mitoChunk, zzzChunk] : List Chunk).countP
          (fun c => decide (0 < score powerhouseQuestion c.text))))
    ∧ retrieve [mitoChunk, zzzChunk] powerhouseQuestion ≠ [] :=
  c1_retrieve_length [mitoChunk, zzzChunk] powerhouseQuestion (by decide)

/-! ### Claim C2 -/

/-- C2 fails as stated: for a 1001-character paragraph the chunker emits an
800-character slice followed by a 201-character slice, and the last 200
characters of the first slice do not reappear at the start of the second —
there is no 200-character overlap. -/
theorem c2_counterexample :
    maxChunkSize < longPara.length
    ∧ ((chunk 0 longPara).map Chunk.text).length = 2
    ∧ ¬((((chunk 0 longPara).map Chunk.text).getD 0 []).drop
          ((((chunk 0 longPara).map Chunk.text).getD 0 []).length
            - (maxChunkSize - sliceStep))
        = (((chunk 0 longPara).map Chunk.text).getD 1 []).take
            (maxChunkSize - sliceStep)) := by
  refine ⟨by rw [longPara_length]; decide, ?_, ?_⟩
  · rw [chunk_texts_longPara]
    rfl
  · rw [chunk_texts_longPara]
    decide

/-- C2 (amended): a paragraph longer than the 1000-character bound is split
into consecutive disjoint slices of at most 800 characters (every slice
except possibly the last has exactly 800), advanced by the 800-character
stride, whose concatenation reconstructs the paragraph with no overlap. -/
theorem c2_slices_disjoint_cover (p s1 s2 : JStr) (h : maxChunkSize < p.length)
    (hs1 : s1 ∈ slices p) (hs2 : s2 ∈ (slices p).dropLast) :
    paraTexts p = slices p
    ∧ (slices p).flatten = p
    ∧ s1.length ≤ sliceStep
    ∧ s2.length = sliceStep := by
  refine ⟨?_, slices_flatten p, length_le_of_mem_slices hs1,
    length_eq_of_mem_slices_dropLast hs2⟩
  unfold paraTexts
  rw [if_neg (by omega)]

/-- Witness for C2 at the 1001-character paragraph. -/
theorem c2_slices_disjoint_cover_witness :
    paraTexts longPara = slices longPara
    ∧ (slices longPara).flatten = longPara
    ∧ (List.replicate 201 'b' : JStr).length ≤ sliceStep
    ∧ (List.replicate 800 'a' : JStr).length = sliceStep :=
  c2_slices_disjoint_cover longPara (List.replicate 201 'b') (List.replicate 800 'a')
    (by rw [longPara_length]; decide)
    (by rw [slices_longPara]; simp)
    (by rw [slices_longPara]; simp)

/-! ### Claim C3 -/

/-- C3: when no chunk scores positively, `retrieve` returns exactly the
first `min 4 (chunk count)` chunks in original order, and the result is
non-empty whenever the document has at least one chunk. -/
theorem c3_zero_score_fallback (chunks : List Chunk) (q : JStr)
    (h : ∀ c ∈ chunks, score q c.text = 0) :
    retrieve chunks q = chunks.take 4 ∧ (chunks ≠ [] → retrieve chunks q ≠ []) := by
  refine ⟨retrieve_zero_scores h, ?_⟩
  intro hne hnil
  rw [retrieve_zero_scores h] at hnil
  have hlen := congrArg List.length hnil
  simp only [List.length_take, List.length_nil] at hlen
  have hpos := List.length_pos.mpr hne
  omega

/-- Witness for C3 at the spec's zero-overlap scenario. -/
theorem c3_zero_score_fallback_witness :
    retrieve [mitoChunk, photoChunk] gravityQuestion
        = List.take 4 [mitoChunk, photoChunk]
    ∧ retrieve [mitoChunk, photoChunk] gravityQuestion ≠ [] :=
  ⟨(c3_zero_score_fallback [mitoChunk, photoChunk] gravityQuestion (by decide)).1,
   (c3_zero_score_fallback [mitoChunk, photoChunk] gravityQuestion (by decide)).2
     (by decide)⟩

/-! ### Claim C4 -/

/-- C4: every chunk text produced by the chunker has length at most 1000,
and a newline-free, already-trimmed paragraph of exactly 1000 characters
yields exactly one chunk. -/
theorem c4_chunk_size_bound (now : Nat) (text : JStr) (c : Chunk)
    (hc : c ∈ chunk now text) :
    c.text.length ≤ maxChunkSize
    ∧ (('\n' ∉ text) → jsTrim text = text → text.length = maxChunkSize →
        (chunk now text).length = 1) := by
  constructor
  · have htext : c.text ∈ chunkTexts text := text_mem_of_mem_buildChunks now hc
    obtain ⟨p, _, ht⟩ := exists_para_of_mem_chunkTexts htext
    exact length_le_of_mem_paraTexts ht
  · intro hnl htr hlen
    have hne : text ≠ [] := by
      intro hx
      rw [hx] at hlen
      simp [maxChunkSize] at hlen
    rw [chunk, length_buildChunks, chunkTexts_eq_paraTexts hnl htr hne]
    unfold paraTexts
    rw [if_pos (le_of_eq hlen)]
    rfl

/-- Witness for C4 at the 1000-character paragraph. -/
theorem c4_chunk_size_bound_witness :
    (Chunk.mk (mkId 0 0) para1000).text.length ≤ maxChunkSize
    ∧ (chunk 0 para1000).length = 1 :=
  ⟨(c4_chunk_size_bound 0 para1000 (Chunk.mk (mkId 0 0) para1000)
      (by rw [chunk_para1000]; exact List.mem_singleton.mpr rfl)).1,
   (c4_chunk_size_bound 0 para1000 (Chunk.mk (mkId 0 0) para1000)
      (by rw [chunk_para1000]; exact List.mem_singleton.mpr rfl)).2
     para1000_no_newline para1000_trim (by simp [para1000, maxChunkSize])⟩

/-! ### Claim C5 -/

/-- C5 fails as stated: a chunk actually produced by the chunker, once
written in its object form `{ id, text }`, has no "ordinal" field at all. -/
theorem c5_counterexample :
    (chunk 0 ('h' :: 'i' :: [])).length = 1
    ∧ (jGet (encodeChunk ((chunk 0 ('h' :: 'i' :: [])).getD 0 ⟨[], []⟩))
        "ordinal").isNone = true := by
  constructor
  · rfl
  · rfl

/-- C5 (amended): every chunk is a record `{ id, text }` with no ordinal
field; its id is the template `${now}_${k}` whose counter `k` equals the
chunk's emission index, so the ids are monotonically numbered and unique
within the document. -/
theorem c5_chunk_ids (now : Nat) (text : JStr) :
    (chunk now text).map Chunk.id
      = (List.range (chunk now text).length).map (fun k => mkId now k)
    ∧ ((chunk now text).map Chunk.id).Nodup := by
  have h := map_id_buildChunks now 0 (chunkTexts text)
  have hlen : (chunk now text).length = (chunkTexts text).length := by
    rw [chunk, length_buildChunks]
  have h1 : (chunk now text).map Chunk.id
      = (List.range (chunkTexts text).length).map (fun k => mkId now k) := by
    rw [chunk]
    simpa using h
  constructor
  · rw [hlen, h1]
  · rw [h1]
    have hinj : Function.Injective (fun k => mkId now k) :=
      fun a b hab => mkId_inj now hab
    exact (List.nodup_range _).map hinj

/-! ### Claim C6 -/

/-- C6: `retrieve` is deterministic — identical inputs give identical
outputs — and the scored list is ordered by descending score with ties kept
in original (ordinal) order: the sorted list restricted to any score value
equals the original scored list restricted to that value. -/
theorem c6_retrieve_deterministic_stable (cs1 cs2 : List Chunk) (q1 q2 : JStr)
    (v : Nat) (hc : cs1 = cs2) (hq : q1 = q2) :
    retrieve cs1 q1 = retrieve cs2 q2
    ∧ (sortScored cs1 q1).Pairwise (fun a b => b.2 ≤ a.2)
    ∧ (sortScored cs1 q1).filter (fun s => decide (s.2 = v))
        = (scored cs1 q1).filter (fun s => decide (s.2 = v)) := by
  subst hc
  subst hq
  exact ⟨rfl, sortScored_pairwise cs1 q1, sortScored_stable cs1 q1 v⟩

/-- Witness for C6 at the spec's two-chunk document. -/
theorem c6_retrieve_deterministic_stable_witness :
    retrieve [mitoChunk, photoChunk] gravityQuestion
        = retrieve [mitoChunk, photoChunk] gravityQuestion
    ∧ (sortScored [mitoChunk, photoChunk] gravityQuestion).Pairwise
        (fun a b => b.2 ≤ a.2)
    ∧ (sortScored [mitoChunk, photoChunk] gravityQuestion).filter
          (fun s => decide (s.2 = 0))
        = (scored [mitoChunk, photoChunk] gravityQuestion).filter
          (fun s => decide (s.2 = 0)) :=
  c6_retrieve_deterministic_stable [mitoChunk, photoChunk] [mitoChunk, photoChunk]
    gravityQuestion gravityQuestion 0 rfl rfl

/-! ### Claim C7 -/

/-- C7 fails as stated: on the question and chunk text `x_y`, the code's
`\\W+` tokenizer keeps the underscore inside a single 3-character token and
scores 1, while splitting on every non-alphanumeric character would discard
the 1-character tokens and score 0. -/
theorem c7_counterexample :
    score ('x' :: '_' :: 'y' :: []) ('x' :: '_' :: 'y' :: []) = 1
    ∧ scoreByAlnumTokens ('x' :: '_' :: 'y' :: []) ('x' :: '_' :: 'y' :: []) = 0 := by
  constructor
  · rfl
  · rfl

/-- C7 (amended): the retriever's score equals the sum, over the lowercase
tokens of the question split on non-word characters (word characters are
ASCII letters, digits and underscore) of length at least 3, of the number
of non-overlapping case-insensitive literal occurrences of the token in the
chunk text. -/
theorem c7_score_formula (q txt : JStr) :
    score q txt = scoreByWordTokens q txt := by
  unfold score scoreByWordTokens
  rw [foldl_score_eq (fun w => countOccs w (txt.map Char.toLower))]
  simp

/-! ### Claim C8 -/

/-- C8: saving a document record and loading it back under the same key
returns exactly the record that was saved (structural equality through the
JSON serialization), and loading from an empty store reports not-found
rather than any partial record. -/
theorem c8_save_load_roundtrip (st : Store) (filename key2 : String)
    (m : DocRecord) :
    loadMeta (saveMeta st filename m) filename = some m
    ∧ loadMeta emptyStore key2 = none := by
  constructor
  · simp [loadMeta, saveMeta, decodeMeta_encodeMeta]
  · rfl

/-! ### Claim C9 -/

/-- C9 fails as stated: on a stored record with an empty chunk sequence the
file-qa handler does not report missing content — it proceeds to the
language-model call with an empty selection. -/
theorem c9_counterexample :
    fileQa (saveMeta emptyStore "stored-notes.txt" emptyChunksRecord)
        (some "stored-notes.txt") (some ('w' :: 'h' :: 'y' :: [])) true
      = ApiResult.ok [] := by rfl

/-- C9 (amended): for a stored record whose chunk sequence is empty, quiz
generation reports "No extracted text available" as a client error, while
file question-answering performs no such check and succeeds with an empty
chunk selection. -/
theorem c9_empty_chunks_behavior (st : Store) (f : String) (q : JStr)
    (m : DocRecord) (hf : f ≠ "") (hq : q ≠ [])
    (hst : st (metaKey f) = some (encodeMeta m)) (hempty : m.chunks = []) :
    fileQuiz st (some f) true
        = ApiResult.clientError 400 "No extracted text available"
    ∧ fileQa st (some f) (some q) true = ApiResult.ok [] := by
  have hchunks : metaChunks (encodeMeta m) = [] := by
    rw [metaChunks_encodeMeta, hempty]
  constructor
  · simp [fileQuiz, hf, hst, hchunks]
  · simp [fileQa, hf, hq, hst, hchunks, retrieve_nil]

/-- Witness for C9 at a concrete empty-chunk record. -/
theorem c9_empty_chunks_behavior_witness :
    fileQuiz (saveMeta emptyStore "stored-notes.txt" emptyChunksRecord)
        (some "stored-notes.txt") true
        = ApiResult.clientError 400 "No extracted text available"
    ∧ fileQa (saveMeta emptyStore "stored-notes.txt" emptyChunksRecord)
        (some "stored-notes.txt") (some ('w' :: 'h' :: 'y' :: [])) true
      = ApiResult.ok [] :=
  c9_empty_chunks_behavior (saveMeta emptyStore "stored-notes.txt" emptyChunksRecord)
    "stored-notes.txt" ('w' :: 'h' :: 'y' :: []) emptyChunksRecord
    (by decide) (by decide) rfl rfl

/-! ### Claim C10 -/

/-- C10: retrieval is read-only — every chunk returned by `retrieve` is an
element of the input chunk sequence with id and text unchanged, and every
chunk in a successful file-qa selection comes from the stored metadata
record, which the query does not modify. -/
theorem c10_retrieve_readonly (chunks : List Chunk) (q : JStr) (c : Chunk)
    (st : Store) (f : String) (g : Bool) (sel : List Chunk) (d : Chunk) (j : Json)
    (hmem : c ∈ retrieve chunks q)
    (hqa : fileQa st (some f) (some q) g = ApiResult.ok sel)
    (hj : st (metaKey f) = some j)
    (hd : d ∈ sel) :
    c ∈ chunks ∧ d ∈ metaChunks j := by
  refine ⟨mem_of_mem_retrieve hmem, ?_⟩
  simp only [fileQa] at hqa
  split at hqa
  · cases hqa
  · rw [hj] at hqa
    simp only at hqa
    split at hqa
    · rename_i hg
      injection hqa with h1
      rw [← h1] at hd
      exact mem_of_mem_retrieve hd
    · cases hqa

/-- Witness for C10 at the spec's two-chunk document stored in the store. -/
theorem c10_retrieve_readonly_witness :
    mitoChunk ∈ [mitoChunk, photoChunk]
    ∧ mitoChunk ∈ metaChunks (encodeMeta sampleRecord) :=
  c10_retrieve_readonly [mitoChunk, photoChunk] powerhouseQuestion mitoChunk
    (saveMeta emptyStore "stored-bio.txt" sampleRecord) "stored-bio.txt" true
    (retrieve (metaChunks (encodeMeta sampleRecord)) powerhouseQuestion) mitoChunk
    (encodeMeta sampleRecord)
    (by decide) rfl rfl (by decide)
